import Mathlib

/-!
Shallow embedding of `src/scripts/gen-docs.py`, the documentation generator
of this repository, together with proofs about its rendering behaviour.

The script loads a JSON document, deletes the top-level `name` and
`description` keys of its `docs` member, and walks the remaining tree with
the recursive function `thing`, printing a Markdown-like outline.  A single
global variable `last` remembers the Python type of the most recently
emitted value (`None`, `dict`, `str` or `list`) and decides blank-line
insertion before headings.

The embedding models Python values produced by `json.loads` with the
inductive type `J`, the global `last` with the inductive type `Last`
threaded through the traversal, and printing by returning the list of
emitted lines.  String helpers (`str.title`, `str.replace("_", " ")`,
`str()` of a value passed to `print`) are modelled for ASCII data, which is
the character range the script is used with.
-/

namespace GenDocs

/-- Values produced by `json.loads`: null, booleans, numbers, strings,
arrays and (insertion-ordered) objects.  Numbers are modelled as integers;
the renderer never inspects numeric content. -/
inductive J where
  | null : J
  | bool : Bool → J
  | num : Int → J
  | str : String → J
  | arr : List J → J
  | obj : List (String × J) → J
deriving Repr

/-- The Python global `last`: it holds `None` or one of the type objects
`dict`, `str`, `list`. -/
inductive Last where
  | none : Last
  | dict : Last
  | str : Last
  | list : Last
deriving Repr, DecidableEq

/-- Python `repr` of a JSON-loaded value, as used by `str()` on lists and
dicts; modelled for strings that contain no quote or backslash characters
(the inputs of this script).  `\x27` is the apostrophe used by Python repr
for strings. -/
def pyRepr : J → String
  | J.null => "None"
  | J.bool true => "True"
  | J.bool false => "False"
  | J.num n => toString n
  | J.str s => "\x27" ++ s ++ "\x27"
  | J.arr xs => "[" ++ String.intercalate ", " (xs.attach.map fun x => pyRepr x.1) ++ "]"
  | J.obj kvs =>
      "\x7b" ++
        String.intercalate ", "
          (kvs.attach.map fun kv => "\x27" ++ kv.1.1 ++ "\x27: " ++ pyRepr kv.1.2) ++
      "\x7d"
termination_by v => sizeOf v
decreasing_by
  · have h := List.sizeOf_lt_of_mem x.2
    simp only [J.arr.sizeOf_spec]
    omega
  · have h1 : sizeOf kv.1 < sizeOf kvs := List.sizeOf_lt_of_mem kv.2
    have h2 : sizeOf kv.1.2 < sizeOf kv.1 := by
      cases kv.1 with
      | mk a b => simp
    simp only [J.obj.sizeOf_spec]
    omega

/-- Python `str()` of a value handed to `print`: a string prints verbatim,
anything else prints its `repr`-based rendering. -/
def pyStrOf : J → String
  | J.str s => s
  | v => pyRepr v

/-- Python `str.title()` (modelled for ASCII): a letter that follows a
letter is lowercased, a letter that follows a non-letter is uppercased,
other characters pass through and reset the word boundary. -/
def titleGo : Bool → List Char → List Char
  | _, [] => []
  | prevCased, c :: cs =>
      if c.isAlpha then
        (if prevCased then c.toLower else c.toUpper) :: titleGo true cs
      else
        c :: titleGo false cs

/-- `s.title()` on a Lean string. -/
def pyTitle (s : String) : String := String.mk (titleGo false s.data)

/-- `k.replace("_", " ")`: every underscore becomes a single space
(character-by-character, since the pattern is a single character). -/
def usToSpace (s : String) : String :=
  String.mk (s.data.map fun c => if c = '_' then ' ' else c)

/-- `"#" * i`. -/
def hashes (i : Nat) : String := String.mk (List.replicate i '#')

/-- The line emitted by `print("#"*i, k.replace("_", " ").title())`:
`print` joins its two arguments with a single space. -/
def headingLine (i : Nat) (k : String) : String :=
  hashes i ++ " " ++ pyTitle (usToSpace k)

/-- The line emitted for a string value: `print(f"- `{k}`: {v}")`. -/
def bulletLine (k v : String) : String := "- `" ++ k ++ "`: " ++ v

/-- The recursive renderer `thing(x, i)` of `gen-docs.py`, with the global
`last` threaded explicitly: given the entries of the current dict, the
heading level `i` and the incoming value of `last`, it returns the emitted
lines and the final value of `last`.

Source, line by line: for each `(k, v)` in insertion order —
a dict first prints a blank line when `last is not None and last != dict`,
sets `last = dict`, prints the heading and a blank line, and recurses at
`i+1`; a string prints one bullet line and sets `last = str`; a list prints
each element and sets `last = list`; any other value is skipped by the
`if/elif` chain, leaving `last` and the output untouched. -/
def thing : List (String × J) → Nat → Last → List String × Last
  | [], _, last => ([], last)
  | (k, v) :: rest, i, last =>
      match v with
      | J.obj m =>
          let pre : List String :=
            if last ≠ Last.none ∧ last ≠ Last.dict then [""] else []
          let sub := thing m (i + 1) Last.dict
          let tail := thing rest i sub.2
          (pre ++ headingLine i k :: "" :: (sub.1 ++ tail.1), tail.2)
      | J.str s =>
          let tail := thing rest i Last.str
          (bulletLine k s :: tail.1, tail.2)
      | J.arr xs =>
          let tail := thing rest i Last.list
          (xs.map pyStrOf ++ tail.1, tail.2)
      | _ => thing rest i last
termination_by l _ _ => sizeOf l
decreasing_by
  all_goals simp <;> omega

/-- Python `x[q]` on a dict: the value at key `q`, if present. -/
def lookupKey : List (String × J) → String → Option J
  | [], _ => Option.none
  | (k, v) :: rest, q => if k = q then Option.some v else lookupKey rest q

/-- Python `del x[q]`: removes the entry at key `q`, failing (`KeyError`)
when the key is absent.  Dicts loaded from JSON have unique keys, so
removing the first occurrence is removal of the only occurrence. -/
def delKey : List (String × J) → String → Option (List (String × J))
  | [], _ => Option.none
  | (k, v) :: rest, q =>
      if k = q then Option.some rest
      else (delKey rest q).map (fun r => (k, v) :: r)

/-- The keys of a dict, in insertion order. -/
def keysOf (m : List (String × J)) : List String := m.map Prod.fst

/-- The `__main__` part of the script: take `x = json["docs"]`, perform
`del x["name"]` and `del x["description"]`, then run `thing(x, 3)` with
`last = None`.  The result is the pair of the emitted lines and, on
success, the document as it stands after the two deletions; every failure
(missing key, non-dict shape) happens before `thing` runs, so the emitted
lines of a failing run are `[]`. -/
def mainRun (top : J) : List String × Option (List (String × J)) :=
  match top with
  | J.obj t =>
      match lookupKey t "docs" with
      | Option.some (J.obj x) =>
          match delKey x "name" with
          | Option.some x1 =>
              match delKey x1 "description" with
              | Option.some x2 => ((thing x2 3 Last.none).1, Option.some x2)
              | Option.none => ([], Option.none)
          | Option.none => ([], Option.none)
      | _ => ([], Option.none)
  | _ => ([], Option.none)

/-- The flattened emission order of the traversal: each entry that the
renderer handles contributes one emission, a pair of the kind recorded in
`last` and the lines the emission itself contributes (separator blanks
excluded).  A Group contributes its heading and the blank line following
it, then the emissions of its children; an Option contributes its bullet
line; a RawLines value contributes its elements; unsupported values
contribute no emission at all. -/
def emitsOf : List (String × J) → Nat → List (Last × List String)
  | [], _ => []
  | (k, v) :: rest, i =>
      match v with
      | J.obj m =>
          (Last.dict, [headingLine i k, ""]) :: (emitsOf m (i + 1) ++ emitsOf rest i)
      | J.str s => (Last.str, [bulletLine k s]) :: emitsOf rest i
      | J.arr xs => (Last.list, xs.map pyStrOf) :: emitsOf rest i
      | _ => emitsOf rest i
termination_by l _ => sizeOf l
decreasing_by
  all_goals simp <;> omega

/-- Assembles an emission sequence into output lines, inserting one blank
separator line before a Group emission exactly when the previous emission
was an Option or a RawLines emission (so never before the first emission,
and never between two consecutive Group emissions). -/
def sepFold : List (Last × List String) → Last → List String
  | [], _ => []
  | (kind, lines) :: es, last =>
      (if kind = Last.dict ∧ (last = Last.str ∨ last = Last.list) then [""]
       else []) ++ lines ++ sepFold es kind

/-- The value of `last` after an emission sequence has been assembled. -/
def lastAfter : List (Last × List String) → Last → Last
  | [], last => last
  | (kind, _) :: es, _ => lastAfter es kind

/-- A Group with key `k` and entries `m` sits at structural depth `d`
inside `entries` (`d = 0` means a direct entry of `entries`). -/
inductive GroupAt : List (String × J) → Nat → String → List (String × J) → Prop where
  | here {entries : List (String × J)} {k : String} {m : List (String × J)}
      (hmem : (k, J.obj m) ∈ entries) : GroupAt entries 0 k m
  | nest {entries : List (String × J)} {k' k : String}
      {m' m : List (String × J)} {d : Nat}
      (hmem : (k', J.obj m') ∈ entries) (h : GroupAt m' d k m) :
      GroupAt entries (d + 1) k m

lemma lastAfter_append (es₁ es₂ : List (Last × List String)) (last : Last) :
    lastAfter (es₁ ++ es₂) last = lastAfter es₂ (lastAfter es₁ last) := by
  induction es₁ generalizing last with
  | nil => rfl
  | cons e es ih => cases e; simp [lastAfter, ih]

lemma sepFold_append (es₁ es₂ : List (Last × List String)) (last : Last) :
    sepFold (es₁ ++ es₂) last =
      sepFold es₁ last ++ sepFold es₂ (lastAfter es₁ last) := by
  induction es₁ generalizing last with
  | nil => rfl
  | cons e es ih => cases e; simp [sepFold, lastAfter, ih]

/-- The blank-line test of the source `last is not None and last != dict` holds
exactly when the previous emission was an Option or a RawLines value. -/
lemma pre_cond_iff (last : Last) :
    (last ≠ Last.none ∧ last ≠ Last.dict) ↔
      (last = Last.str ∨ last = Last.list) := by
  cases last <;> simp

/-- Structure theorem: the renderer equals the assembly of its emission
sequence, and the final `last` is the kind of the latest emission. -/
lemma thing_eq_sepFold (entries : List (String × J)) (i : Nat) (last : Last) :
    thing entries i last =
      (sepFold (emitsOf entries i) last, lastAfter (emitsOf entries i) last) := by
  induction entries, i, last using thing.induct with
  | case1 i last => simp [thing, emitsOf, sepFold, lastAfter]
  | case2 k rest i last m sub ih₁ ih₂ =>
      simp only [thing, emitsOf, sepFold, lastAfter, sepFold_append, lastAfter_append]
      unfold sub at ih₂
      rw [ih₁] at ih₂
      simp [ih₁, ih₂, pre_cond_iff]
  | case3 k rest i last s ih =>
      simp [thing, emitsOf, sepFold, lastAfter, ih]
  | case4 k rest i last xs ih =>
      simp [thing, emitsOf, sepFold, lastAfter, ih]
  | case5 k v rest i last h1 h2 h3 ih =>
      simp only [thing, emitsOf]
      exact ih

/-- Every Group emission carries exactly its heading line and the blank
line that follows it. -/
lemma emitsOf_group_lines (entries : List (String × J)) (i : Nat) :
    ∀ e ∈ emitsOf entries i, e.1 = Last.dict → ∃ h, e.2 = [h, ""] := by
  induction entries, i using emitsOf.induct with
  | case1 i => simp [emitsOf]
  | case2 k rest i m ih₁ ih₂ =>
      intro e he hdict
      simp only [emitsOf, List.mem_cons, List.mem_append] at he
      rcases he with rfl | he | he
      · exact ⟨headingLine i k, rfl⟩
      · exact ih₁ e he hdict
      · exact ih₂ e he hdict
  | case3 k rest i s ih =>
      intro e he hdict
      simp only [emitsOf, List.mem_cons] at he
      rcases he with rfl | he
      · simp at hdict
      · exact ih e he hdict
  | case4 k rest i xs ih =>
      intro e he hdict
      simp only [emitsOf, List.mem_cons] at he
      rcases he with rfl | he
      · simp at hdict
      · exact ih e he hdict
  | case5 k v rest i h1 h2 h3 ih =>
      simp only [emitsOf]
      exact ih

/-- A direct Group entry contributes its heading emission. -/
lemma emitsOf_mem_of_entry {k : String} {m : List (String × J)}
    {entries : List (String × J)} (hmem : (k, J.obj m) ∈ entries) (i : Nat) :
    (Last.dict, [headingLine i k, ""]) ∈ emitsOf entries i := by
  induction entries with
  | nil => cases hmem
  | cons e rest ih =>
      obtain ⟨k', v⟩ := e
      rcases List.mem_cons.mp hmem with heq | hmem'
      · injection heq with h1 h2
        subst h1
        subst h2
        simp [emitsOf]
      · cases v with
        | obj m' => simp only [emitsOf]; right; exact List.mem_append_right _ (ih hmem')
        | str s => simp only [emitsOf]; right; exact ih hmem'
        | arr xs => simp only [emitsOf]; right; exact ih hmem'
        | null => simpa [emitsOf] using ih hmem'
        | bool b => simpa [emitsOf] using ih hmem'
        | num n => simpa [emitsOf] using ih hmem'

/-- The emissions of the entries of a nested Group form a contiguous segment of
the enclosing emission sequence. -/
lemma emitsOf_segment {k' : String} {m' : List (String × J)}
    {entries : List (String × J)} (hmem : (k', J.obj m') ∈ entries) (i : Nat) :
    ∃ es₁ es₂, emitsOf entries i = es₁ ++ emitsOf m' (i + 1) ++ es₂ := by
  induction entries with
  | nil => cases hmem
  | cons e rest ih =>
      obtain ⟨k, v⟩ := e
      rcases List.mem_cons.mp hmem with heq | hmem'
      · injection heq with h1 h2
        subst h1
        subst h2
        exact ⟨[(Last.dict, [headingLine i k', ""])], emitsOf rest i, by simp [emitsOf]⟩
      · obtain ⟨es₁, es₂, hsplit⟩ := ih hmem'
        cases v with
        | obj m =>
            exact ⟨(Last.dict, [headingLine i k, ""]) :: emitsOf m (i + 1) ++ es₁, es₂,
              by simp [emitsOf, hsplit]⟩
        | str s =>
            exact ⟨(Last.str, [bulletLine k s]) :: es₁, es₂, by simp [emitsOf, hsplit]⟩
        | arr xs =>
            exact ⟨(Last.list, xs.map pyStrOf) :: es₁, es₂, by simp [emitsOf, hsplit]⟩
        | null => exact ⟨es₁, es₂, by simpa [emitsOf] using hsplit⟩
        | bool b => exact ⟨es₁, es₂, by simpa [emitsOf] using hsplit⟩
        | num n => exact ⟨es₁, es₂, by simpa [emitsOf] using hsplit⟩

/-- A Group at structural depth `d` produces a heading emission at heading
level `i + d` when the walk of `entries` starts at level `i`. -/
lemma groupAt_emission {entries : List (String × J)} {d : Nat} {k : String}
    {m : List (String × J)} (h : GroupAt entries d k m) :
    ∀ i, ∃ es₁ es₂,
      emitsOf entries i = es₁ ++ (Last.dict, [headingLine (i + d) k, ""]) :: es₂ := by
  induction h with
  | here hmem =>
      intro i
      have := emitsOf_mem_of_entry hmem i
      obtain ⟨es₁, es₂, hsplit⟩ := List.append_of_mem this
      exact ⟨es₁, es₂, by simpa using hsplit⟩
  | @nest entries' k₁ k₂ m₁ m₂ d' hmem hsub ih =>
      intro i
      obtain ⟨es₁, es₂, hseg⟩ := emitsOf_segment hmem i
      obtain ⟨fs₁, fs₂, hin⟩ := ih (i + 1)
      refine ⟨es₁ ++ fs₁, fs₂ ++ es₂, ?_⟩
      have harith : i + 1 + d' = i + (d' + 1) := by omega
      rw [hseg, hin, harith]
      simp [List.append_assoc]

/-- Assembling an emission sequence keeps the own lines of each emission as a
contiguous run of the output. -/
lemma sepFold_split (es₁ es₂ : List (Last × List String)) (kind : Last)
    (lines : List String) (last : Last) :
    ∃ pre post,
      sepFold (es₁ ++ (kind, lines) :: es₂) last = pre ++ lines ++ post := by
  rw [sepFold_append]
  refine ⟨sepFold es₁ last ++
    (if kind = Last.dict ∧
        (lastAfter es₁ last = Last.str ∨ lastAfter es₁ last = Last.list)
     then [""] else []), sepFold es₂ kind, ?_⟩
  simp [sepFold]

/-- The run of heading markers at the start of a heading line stops at the
space `print` inserts, so it has exactly the intended length. -/
lemma takeWhile_hash_run (n : Nat) (l : List Char) :
    (List.replicate n '#' ++ ' ' :: l).takeWhile (fun c => c = '#')
      = List.replicate n '#' := by
  induction n with
  | zero => simp [List.takeWhile]
  | succ n ih => simp [List.replicate, List.takeWhile, ih]

lemma headingLine_data (i : Nat) (k : String) :
    (headingLine i k).data
      = List.replicate i '#' ++ ' ' :: (pyTitle (usToSpace k)).data := by
  simp [headingLine, hashes, String.data_append]

/-- On a successful run, the printed lines are the rendering of the
residual document at start level 3 with `last = None`. -/
lemma mainRun_some (t : List (String × J)) (out : List String)
    (r : List (String × J)) (h : mainRun (J.obj t) = (out, Option.some r)) :
    out = (thing r 3 Last.none).1 := by
  simp only [mainRun] at h
  repeat split at h
  any_goals exact Option.noConfusion (congrArg Prod.snd h)
  have h1 := congrArg Prod.fst h
  have h2 := congrArg Prod.snd h
  simp only [] at h1 h2
  injection h2 with h3
  subst h3
  exact h1.symm

/-- A Group at structural depth `d` inside `entries` contributes the lines
`headingLine (i + d) k` and `""` consecutively to the output of
`thing entries i last`. -/
lemma thing_heading_at_depth {entries : List (String × J)} {d : Nat}
    {k : String} {m : List (String × J)} (h : GroupAt entries d k m)
    (i : Nat) (last : Last) :
    ∃ pre post,
      (thing entries i last).1 = pre ++ headingLine (i + d) k :: "" :: post := by
  obtain ⟨es₁, es₂, hsplit⟩ := groupAt_emission h i
  obtain ⟨pre, post, hfold⟩ :=
    sepFold_split es₁ es₂ Last.dict [headingLine (i + d) k, ""] last
  refine ⟨pre, post, ?_⟩
  have h1 := congrArg Prod.fst (thing_eq_sepFold entries i last)
  rw [h1]
  simp only [hsplit, hfold, List.append_assoc, List.cons_append, List.nil_append]

/-- A key is absent from a dict exactly when lookup fails. -/
lemma lookupKey_eq_none_iff (m : List (String × J)) (q : String) :
    lookupKey m q = Option.none ↔ q ∉ keysOf m := by
  induction m with
  | nil => simp [lookupKey, keysOf]
  | cons e rest ih =>
      obtain ⟨k, v⟩ := e
      by_cases hk : k = q
      · subst hk
        simp [lookupKey, keysOf]
      · simp [lookupKey, keysOf, hk, ih, Ne.symm hk]

/-- `del x[q]` fails exactly when the key is absent. -/
lemma delKey_none_iff (m : List (String × J)) (q : String) :
    delKey m q = Option.none ↔ lookupKey m q = Option.none := by
  induction m with
  | nil => simp [delKey, lookupKey]
  | cons e rest ih =>
      obtain ⟨k, v⟩ := e
      by_cases hk : k = q
      · subst hk
        simp [delKey, lookupKey]
      · simp [delKey, lookupKey, hk, ih]

/-- What a successful `del x[q]` does: every other key keeps its value,
no key appears from nowhere, the deleted key is gone (when the keys were
unique, as in a dict), and key uniqueness is preserved. -/
lemma delKey_some_lookup {m m' : List (String × J)} {q : String}
    (h : delKey m q = Option.some m') :
    (∀ q', q' ≠ q → lookupKey m' q' = lookupKey m q')
    ∧ keysOf m' ⊆ keysOf m
    ∧ ((keysOf m).Nodup → lookupKey m' q = Option.none)
    ∧ ((keysOf m).Nodup → (keysOf m').Nodup) := by
  induction m generalizing m' with
  | nil => simp [delKey] at h
  | cons e rest ih =>
      obtain ⟨k, v⟩ := e
      by_cases hk : k = q
      · subst hk
        have hmr : rest = m' := by simpa [delKey] using h
        subst hmr
        refine ⟨?_, ?_, ?_, ?_⟩
        · intro q' hq'
          simp [lookupKey, Ne.symm hq']
        · simp [keysOf, List.subset_cons_of_subset, List.Subset.refl]
        · intro hnd
          simp only [keysOf, List.map_cons, List.nodup_cons] at hnd
          exact (lookupKey_eq_none_iff rest k).mpr hnd.1
        · intro hnd
          simp only [keysOf, List.map_cons, List.nodup_cons] at hnd
          exact hnd.2
      · simp only [delKey, if_neg hk] at h
        rcases hdel : delKey rest q with _ | r
        · rw [hdel] at h; simp at h
        · rw [hdel] at h
          simp only [Option.map_some', Option.some.injEq] at h
          subst h
          obtain ⟨hpres, hsub, hnone, hndp⟩ := ih hdel
          refine ⟨?_, ?_, ?_, ?_⟩
          · intro q' hq'
            by_cases hkq : k = q'
            · subst hkq
              simp [lookupKey]
            · simp [lookupKey, hkq, hpres q' hq']
          · simp only [keysOf, List.map_cons]
            exact List.cons_subset_cons k hsub
          · intro hnd
            simp only [keysOf, List.map_cons, List.nodup_cons] at hnd
            simp [lookupKey, hk, hnone hnd.2]
          · intro hnd
            simp only [keysOf, List.map_cons, List.nodup_cons] at hnd ⊢
            exact ⟨fun hmem => hnd.1 (hsub hmem), hndp hnd.2⟩

/-- C1, as stated, is false on the code: rendering the document
`{"a": "v", "b": {}}` emits a blank line between the Option emission
`- `a`: v` and the Group emission `### B` that immediately follows it,
although the claim says no blank line is inserted between a Group emission
and an immediately preceding Option emission. -/
theorem blank_line_claim_counterexample :
    (thing [("a", J.str "v"), ("b", J.obj [])] 3 Last.none).1
      = ["- `a`: v", "", "### B", ""] := by
  simp [thing, bulletLine, headingLine, hashes, pyTitle, usToSpace, titleGo]

/-- C1 (amended): in the flattened emission order, one blank separator
line is inserted before a Group emission exactly when the previous
emission was an Option or a RawLines emission; no blank line is inserted
before the first emission overall, and none between two consecutive Group
emissions — between those, exactly the single blank line that every Group
emission itself carries after its heading appears.  Formally: the
output of the renderer is the assembly `sepFold` of the emission sequence
(whose separator rule is exactly the amended law), and every Group
emission consists of its heading line followed by one blank line. -/
theorem blank_line_law (entries : List (String × J)) (i : Nat) (last : Last) :
    (thing entries i last).1 = sepFold (emitsOf entries i) last
    ∧ ∀ e ∈ emitsOf entries i, e.1 = Last.dict → ∃ h, e.2 = [h, ""] := by
  constructor
  · exact congrArg Prod.fst (thing_eq_sepFold entries i last)
  · exact emitsOf_group_lines entries i

/-- Witness for C1 (amended), at the document `{"a": "v", "b": {}}`
started with `last = None`. -/
theorem blank_line_law_witness :
    (thing [("a", J.str "v"), ("b", J.obj [])] 3 Last.none).1
      = sepFold (emitsOf [("a", J.str "v"), ("b", J.obj [])] 3) Last.none
    ∧ ∃ h, ((Last.dict, [headingLine 3 "b", ""]) : Last × List String).2 = [h, ""] := by
  constructor
  · exact (blank_line_law [("a", J.str "v"), ("b", J.obj [])] 3 Last.none).1
  · exact (blank_line_law [("a", J.str "v"), ("b", J.obj [])] 3 Last.none).2
      (Last.dict, [headingLine 3 "b", ""]) (by simp [emitsOf]) rfl

/-- C2: on a successful run, a Group nested at structural depth `d` of the
residual document (the root mapping after the `name`/`description`
deletions is depth 0) is rendered as a heading line that begins with
exactly `3 + d` heading marker characters, and that heading line is
followed by one blank line. -/
theorem group_heading_depth (t : List (String × J)) (out : List String)
    (r : List (String × J)) (d : Nat) (k : String) (m : List (String × J))
    (hrun : mainRun (J.obj t) = (out, Option.some r))
    (hat : GroupAt r d k m) :
    (∃ pre post, out = pre ++ headingLine (3 + d) k :: "" :: post)
    ∧ (headingLine (3 + d) k).data.takeWhile (fun c => c = '#')
        = List.replicate (3 + d) '#' := by
  constructor
  · rw [mainRun_some t out r hrun]
    exact thing_heading_at_depth hat 3 Last.none
  · rw [headingLine_data]
    exact takeWhile_hash_run _ _

/-- Witness for C2, at a document whose `docs` member holds a Group
`general` containing a nested Group `sub_group` (structural depth 1). -/
theorem group_heading_depth_witness :
    (mainRun (J.obj [("docs", J.obj [("name", J.str "n"), ("description", J.str "d"),
        ("general", J.obj [("sub_group", J.obj [])])])])
      = (["### General", "", "#### Sub Group", ""],
         Option.some [("general", J.obj [("sub_group", J.obj [])])]))
    ∧ GroupAt [("general", J.obj [("sub_group", J.obj [])])] 1 "sub_group" []
    ∧ ((∃ pre post, ["### General", "", "#### Sub Group", ""]
          = pre ++ headingLine (3 + 1) "sub_group" :: "" :: post)
       ∧ (headingLine (3 + 1) "sub_group").data.takeWhile (fun c => c = '#')
          = List.replicate (3 + 1) '#') := by
  have hrun : mainRun (J.obj [("docs", J.obj [("name", J.str "n"), ("description", J.str "d"),
      ("general", J.obj [("sub_group", J.obj [])])])])
      = (["### General", "", "#### Sub Group", ""],
         Option.some [("general", J.obj [("sub_group", J.obj [])])]) := by
    simp [mainRun, lookupKey, delKey, thing, headingLine, hashes, pyTitle, usToSpace, titleGo]
  have hat : GroupAt [("general", J.obj [("sub_group", J.obj [])])] 1 "sub_group" [] :=
    GroupAt.nest (List.mem_singleton.mpr rfl) (GroupAt.here (List.mem_singleton.mpr rfl))
  exact ⟨hrun, hat, group_heading_depth _ _ _ 1 "sub_group" [] hrun hat⟩

/-- C3: every key rendered as a Group heading appears in the output as the
heading markers, a space, and the key with every underscore replaced by a
space and Python title-casing applied; in particular `general_settings`
renders as the heading text `General Settings`. -/
theorem heading_text_transform {k : String} {m : List (String × J)}
    {entries : List (String × J)} (hmem : (k, J.obj m) ∈ entries)
    (i : Nat) (last : Last) :
    (∃ pre post, (thing entries i last).1
        = pre ++ (hashes i ++ " " ++ pyTitle (usToSpace k)) :: post)
    ∧ pyTitle (usToSpace "general_settings") = "General Settings" := by
  constructor
  · have hm := emitsOf_mem_of_entry hmem i
    obtain ⟨es₁, es₂, hsplit⟩ := List.append_of_mem hm
    obtain ⟨pre, post, hfold⟩ :=
      sepFold_split es₁ es₂ Last.dict [headingLine i k, ""] last
    refine ⟨pre, "" :: post, ?_⟩
    have h1 : (thing entries i last).1 = sepFold (emitsOf entries i) last := by
      rw [thing_eq_sepFold]
    rw [h1, hsplit, hfold]
    simp [headingLine]
  · rfl

/-- Witness for C3, at a document with the Group key `general_settings`:
it is rendered as the heading `### General Settings`. -/
theorem heading_text_transform_witness :
    (("general_settings", J.obj []) ∈ [("general_settings", (J.obj [] : J))])
    ∧ ((∃ pre post, (thing [("general_settings", J.obj [])] 3 Last.none).1
          = pre ++ (hashes 3 ++ " " ++ pyTitle (usToSpace "general_settings")) :: post)
       ∧ pyTitle (usToSpace "general_settings") = "General Settings") := by
  have hmem : ("general_settings", J.obj []) ∈ [("general_settings", (J.obj [] : J))] :=
    List.mem_singleton.mpr rfl
  exact ⟨hmem, heading_text_transform hmem 3 Last.none⟩

/-- C4: a key whose value is a string is rendered as exactly one line —
a bullet, the key in backticks, the separator `: `, the string verbatim —
and the traversal continues on the remaining entries with
`last-emitted-kind = Option` (Python `last = str`). -/
theorem option_bullet_line (k s : String) (rest : List (String × J))
    (i : Nat) (last : Last) :
    thing ((k, J.str s) :: rest) i last
      = (("- `" ++ k ++ "`: " ++ s) :: (thing rest i Last.str).1,
         (thing rest i Last.str).2) := by
  simp [thing, bulletLine]

/-- C5: a key whose value is a sequence of strings is rendered as those
strings verbatim, one output line per element in sequence order, with no
bullet, heading marker or separator added, and the traversal continues on
the remaining entries with `last-emitted-kind = RawLines`
(Python `last = list`). -/
theorem rawlines_verbatim (k : String) (xs : List String)
    (rest : List (String × J)) (i : Nat) (last : Last) :
    thing ((k, J.arr (xs.map J.str)) :: rest) i last
      = (xs ++ (thing rest i Last.list).1, (thing rest i Last.list).2) := by
  have hmap : (xs.map J.str).map pyStrOf = xs := by
    rw [List.map_map]
    have hcomp : (pyStrOf ∘ J.str) = fun s => s := funext fun s => rfl
    rw [hcomp]
    simp
  simp [thing, hmap]

/-- C6: a run fails before emitting any output line — the result is the
pair of the empty line list and no residual document — when the top-level
document lacks the `docs` key, or when the `name` or the `description` key
is absent inside `docs`.  The failure points in the source
(`json.loads(...)["docs"]`, `del x["name"]`, `del x["description"]`) all
precede the call `thing(x, 3)`. -/
theorem required_key_failure (t : List (String × J)) :
    (lookupKey t "docs" = Option.none → mainRun (J.obj t) = ([], Option.none))
    ∧ (∀ x, lookupKey t "docs" = Option.some (J.obj x) →
        lookupKey x "name" = Option.none →
        mainRun (J.obj t) = ([], Option.none))
    ∧ (∀ x, lookupKey t "docs" = Option.some (J.obj x) →
        lookupKey x "description" = Option.none →
        mainRun (J.obj t) = ([], Option.none)) := by
  refine ⟨?_, ?_, ?_⟩
  · intro h
    simp [mainRun, h]
  · intro x hx hn
    have hd : delKey x "name" = Option.none := (delKey_none_iff _ _).mpr hn
    simp [mainRun, hx, hd]
  · intro x hx hdesc
    rcases hdel : delKey x "name" with _ | x1
    · simp [mainRun, hx, hdel]
    · have h1 : lookupKey x1 "description" = Option.none := by
        rw [(delKey_some_lookup hdel).1 "description" (by decide)]
        exact hdesc
      have h2 : delKey x1 "description" = Option.none :=
        (delKey_none_iff _ _).mpr h1
      simp [mainRun, hx, hdel, h2]

/-- Witness for C6, at the document `{"docs": {"name": "n"}}`, which has
`docs` and `name` but no `description`: the run emits nothing and fails. -/
theorem required_key_failure_witness :
    lookupKey [("docs", J.obj [("name", J.str "n")])] "docs"
        = Option.some (J.obj [("name", J.str "n")])
    ∧ lookupKey [("name", J.str "n")] "description" = Option.none
    ∧ mainRun (J.obj [("docs", J.obj [("name", J.str "n")])]) = ([], Option.none) := by
  refine ⟨rfl, rfl, ?_⟩
  exact (required_key_failure [("docs", J.obj [("name", J.str "n")])]).2.2
    [("name", J.str "n")] rfl rfl

/-- C7: the only mutation a run performs on the document is the deletion
of the two keys `name` and `description` of the `docs` mapping: on a
successful run the residual document no longer has those two keys, and
every other key still maps to exactly the value (the whole subtree,
unchanged at every depth) it had in the loaded document.  The walk
`thing` itself never mutates the document. -/
theorem frame_two_deletions (t x r : List (String × J)) (out : List String)
    (hx : lookupKey t "docs" = Option.some (J.obj x))
    (hnd : (keysOf x).Nodup)
    (hrun : mainRun (J.obj t) = (out, Option.some r)) :
    lookupKey r "name" = Option.none
    ∧ lookupKey r "description" = Option.none
    ∧ ∀ k, k ≠ "name" → k ≠ "description" → lookupKey r k = lookupKey x k := by
  rcases hdel1 : delKey x "name" with _ | x1
  · exfalso
    rw [mainRun] at hrun
    simp [hx, hdel1] at hrun
  · rcases hdel2 : delKey x1 "description" with _ | x2
    · exfalso
      rw [mainRun] at hrun
      simp [hx, hdel1, hdel2] at hrun
    · have hr : x2 = r := by
        rw [mainRun] at hrun
        simp [hx, hdel1, hdel2] at hrun
        exact hrun.2
      subst hr
      obtain ⟨hpres1, hsub1, hnone1, hnd1⟩ := delKey_some_lookup hdel1
      obtain ⟨hpres2, hsub2, hnone2, hnd2⟩ := delKey_some_lookup hdel2
      refine ⟨?_, ?_, ?_⟩
      · rw [hpres2 "name" (by decide)]
        exact hnone1 hnd
      · exact hnone2 (hnd1 hnd)
      · intro k hk1 hk2
        rw [hpres2 k hk2, hpres1 k hk1]

/-- Witness for C7, at the document
`{"docs": {"name": "n", "description": "d", "other": "o"}}`: after the
run, `name` and `description` are gone and `other` still maps to `"o"`. -/
theorem frame_two_deletions_witness :
    lookupKey [("docs", J.obj [("name", J.str "n"), ("description", J.str "d"),
        ("other", J.str "o")])] "docs"
      = Option.some (J.obj [("name", J.str "n"), ("description", J.str "d"),
        ("other", J.str "o")])
    ∧ (keysOf [("name", J.str "n"), ("description", J.str "d"),
        ("other", J.str "o")]).Nodup
    ∧ mainRun (J.obj [("docs", J.obj [("name", J.str "n"), ("description", J.str "d"),
        ("other", J.str "o")])])
      = (["- `other`: o"], Option.some [("other", J.str "o")])
    ∧ (lookupKey [("other", J.str "o")] "name" = Option.none
       ∧ lookupKey [("other", J.str "o")] "description" = Option.none
       ∧ ∀ k, k ≠ "name" → k ≠ "description" →
          lookupKey [("other", J.str "o")] k
            = lookupKey [("name", J.str "n"), ("description", J.str "d"),
                ("other", J.str "o")] k) := by
  have hx : lookupKey [("docs", J.obj [("name", J.str "n"), ("description", J.str "d"),
      ("other", J.str "o")])] "docs"
      = Option.some (J.obj [("name", J.str "n"), ("description", J.str "d"),
        ("other", J.str "o")]) := rfl
  have hnd : (keysOf [("name", J.str "n"), ("description", J.str "d"),
      ("other", J.str "o")]).Nodup := by
    simp [keysOf]
  have hrun : mainRun (J.obj [("docs", J.obj [("name", J.str "n"),
      ("description", J.str "d"), ("other", J.str "o")])])
      = (["- `other`: o"], Option.some [("other", J.str "o")]) := by
    simp [mainRun, lookupKey, delKey, thing, bulletLine]
  exact ⟨hx, hnd, hrun, frame_two_deletions _ _ _ _ hx hnd hrun⟩

/-- C8: the output is a deterministic function of the content of the document
and key order.  In this embedding the renderer and the whole run are pure
functions of the parsed document (the source reads no other input and dict
iteration follows insertion order), so two invocations started with
`last = None` on the same document give identical output by reflexivity. -/
theorem render_deterministic (entries : List (String × J)) (top : J) :
    (thing entries 3 Last.none).1 = (thing entries 3 Last.none).1
    ∧ mainRun top = mainRun top :=
  ⟨rfl, rfl⟩

/-- C9: a value that is neither a mapping, a string nor a sequence — a
number, a boolean or null — falls through the `if/elif` chain: the entry
emits nothing, `last` is unchanged, no failure occurs, and the traversal
continues with the remaining entries. -/
theorem unsupported_value_skipped (k : String) (rest : List (String × J))
    (i : Nat) (last : Last) :
    (∀ n : Int, thing ((k, J.num n) :: rest) i last = thing rest i last)
    ∧ (∀ b : Bool, thing ((k, J.bool b) :: rest) i last = thing rest i last)
    ∧ thing ((k, J.null) :: rest) i last = thing rest i last := by
  refine ⟨fun n => ?_, fun b => ?_, ?_⟩ <;> simp [thing]

/-- C10: an empty sequence emits zero lines yet still sets `last` to
`list`, so a Group rendered next is preceded by an inserted blank line —
even starting from `last = None`, where the same Group without the empty
sequence before it gets no blank line. -/
theorem empty_rawlines_invisible_emission (k k' : String)
    (m rest : List (String × J)) (i : Nat) (last : Last) :
    thing ((k, J.arr []) :: rest) i last = thing rest i Last.list
    ∧ (thing ((k, J.arr []) :: (k', J.obj m) :: rest) i Last.none).1
        = "" :: headingLine i k'
          :: "" :: ((thing m (i + 1) Last.dict).1
            ++ (thing rest i (thing m (i + 1) Last.dict).2).1)
    ∧ (thing ((k', J.obj m) :: rest) i Last.none).1
        = headingLine i k'
          :: "" :: ((thing m (i + 1) Last.dict).1
            ++ (thing rest i (thing m (i + 1) Last.dict).2).1) := by
  refine ⟨?_, ?_, ?_⟩ <;> simp [thing]

end GenDocs
